import Mathlib

/-!
Verification of the Global Cardinality Constraint (GCC) propagator family
of `gecode/int/gcc.hh`.  The repository ships only the header (declarations
and documentation); the implementation files (`bnd.hpp`, `ubc.hpp`,
`lbc.hpp`, `dom.hpp`, `val.hpp`, `post.hpp`) are absent, so the propagators
are modelled from the specification: domains are finite lists of integers,
a cardinality entry pairs a value with a required count range, and each
propagator is a function from domains to domains together with an
execution status.
-/

namespace GccSpec

/-- Modelled from the spec: a cardinality entry (`Card` / OccurrenceSpec,
gcc.hh lines 134-135, spec section 3): a `(value, lo, hi)` triple demanding
`lo ≤ |\x7bi : x_i = value\x7d| ≤ hi`. -/
structure CardSpec where
  value : Int
  lo : Int
  hi : Int
deriving DecidableEq

/-- Number of occurrences of value `v` in assignment `a`. -/
def countVal (v : Int) (a : List Int) : Nat :=
  List.count v a

/-- Modelled from the spec: an assignment satisfies all cardinality
constraints (spec section 1): for each entry, the count of its value lies
in `[lo, hi]`. -/
def satisfies (ks : List CardSpec) (a : List Int) : Prop :=
  ∀ c ∈ ks, c.lo ≤ (countVal c.value a : Int) ∧ (countVal c.value a : Int) ≤ c.hi

/-- Boolean version of `satisfies`. -/
def satB (ks : List CardSpec) (a : List Int) : Bool :=
  ks.all (fun c =>
    decide (c.lo ≤ (countVal c.value a : Int)) &&
    decide ((countVal c.value a : Int) ≤ c.hi))

theorem satB_iff {ks : List CardSpec} {a : List Int} :
    satB ks a = true ↔ satisfies ks a := by
  simp [satB, satisfies, List.all_eq_true]

/-- Pointwise (index-based) consequence of a `Forall₂` membership. -/
theorem forall2_getD {a : List Int} {ds : List (List Int)}
    (h : List.Forall₂ (· ∈ ·) a ds) :
    a.length = ds.length ∧ ∀ i, i < ds.length → a.getD i 0 ∈ ds.getD i [] := by
  induction h with
  | nil => exact ⟨rfl, fun i hi => absurd hi (by simp)⟩
  | cons hmem _ ih =>
    refine ⟨by simp [ih.1], fun i hi => ?_⟩
    cases i with
    | zero => simpa using hmem
    | succ i =>
      simp only [List.getD_cons_succ]
      exact ih.2 i (by simpa using hi)

/-- Building a `Forall₂` membership from pointwise facts. -/
theorem forall2_of_getD : ∀ {a : List Int} {ds : List (List Int)},
    a.length = ds.length →
    (∀ i, i < ds.length → a.getD i 0 ∈ ds.getD i []) →
    List.Forall₂ (· ∈ ·) a ds
  | [], [], _, _ => List.Forall₂.nil
  | [], _ :: _, hl, _ => by simp at hl
  | _ :: _, [], hl, _ => by simp at hl
  | x :: a, d :: ds, hl, hp => by
    refine List.Forall₂.cons (by simpa using hp 0 (by simp)) ?_
    exact forall2_of_getD (by simpa using hl)
      (fun i hi => by simpa using hp (i + 1) (by simpa using hi))

/-- `v` is a supported value for variable `i`: some assignment drawn from
the domains takes `v` at `i` and satisfies all cardinality constraints. -/
def supportedB (ds : List (List Int)) (ks : List CardSpec) (i : Nat) (v : Int) : Bool :=
  ds.sections.any (fun a => satB ks a && (a.getD i 0 == v))

theorem supportedB_iff {ds : List (List Int)} {ks : List CardSpec} {i : Nat} {v : Int} :
    supportedB ds ks i v = true ↔
      ∃ a, List.Forall₂ (· ∈ ·) a ds ∧ satisfies ks a ∧ a.getD i 0 = v := by
  simp only [supportedB, List.any_eq_true, Bool.and_eq_true, beq_iff_eq,
    List.mem_sections, satB_iff]

/-- Modelled from the spec: the filtering performed by the
domain-consistent propagator `Dom::propagate` (gcc.hh lines 294-295,
`dom.hpp` absent, spec sections 4.4 and 8): a value survives iff it has a
support, i.e. iff it participates in some satisfying assignment
(generalized arc consistency via the variable-value graph). -/
def domFilter (ds : List (List Int)) (ks : List CardSpec) : List (List Int) :=
  (List.range ds.length).map
    (fun i => (ds.getD i []).filter (fun v => supportedB ds ks i v))

theorem length_domFilter (ds : List (List Int)) (ks : List CardSpec) :
    (domFilter ds ks).length = ds.length := by
  simp [domFilter]

theorem getD_domFilter {ds : List (List Int)} {ks : List CardSpec} {i : Nat}
    (hi : i < ds.length) :
    (domFilter ds ks).getD i [] =
      (ds.getD i []).filter (fun v => supportedB ds ks i v) := by
  have : (domFilter ds ks)[i]? =
      some ((ds.getD i []).filter (fun v => supportedB ds ks i v)) := by
    simp [domFilter, List.getElem?_map, List.getElem?_range, hi]
  simp [List.getD, this]

theorem getD_domFilter_ge {ds : List (List Int)} {ks : List CardSpec} {i : Nat}
    (hi : ds.length ≤ i) :
    (domFilter ds ks).getD i [] = [] := by
  have : (domFilter ds ks)[i]? = none := by
    apply List.getElem?_eq_none
    simpa [length_domFilter]
  simp [List.getD, this]

/-- Membership in the Dom-filtered domain of variable `i`. -/
theorem mem_domFilter {ds : List (List Int)} {ks : List CardSpec} {i : Nat} {v : Int} :
    v ∈ (domFilter ds ks).getD i [] ↔
      i < ds.length ∧ v ∈ ds.getD i [] ∧ supportedB ds ks i v = true := by
  by_cases hi : i < ds.length
  · rw [getD_domFilter hi]
    simp [List.mem_filter, hi]
  · rw [getD_domFilter_ge (Nat.le_of_not_lt hi)]
    simp [hi]

/-- Modelled from the spec: `Dom::propagate` (spec section 4.6) reports
failure exactly when some variable is left with an empty domain. -/
def domPropagate (ds : List (List Int)) (ks : List CardSpec) :
    Option (List (List Int)) :=
  let ds' := domFilter ds ks
  if ds'.all (fun d => !d.isEmpty) then some ds' else none

/-- Least element of a list of integers, if any. -/
def listMin : List Int → Option Int
  | [] => none
  | v :: vs => some (vs.foldl min v)

/-- Greatest element of a list of integers, if any. -/
def listMax : List Int → Option Int
  | [] => none
  | v :: vs => some (vs.foldl max v)

theorem foldl_min_le_init (l : List Int) (a : Int) : l.foldl min a ≤ a := by
  induction l generalizing a with
  | nil => simp
  | cons x xs ih =>
    simp only [List.foldl_cons]
    exact le_trans (ih (min a x)) (min_le_left a x)

theorem foldl_min_le_mem {l : List Int} {v : Int} (hv : v ∈ l) (a : Int) :
    l.foldl min a ≤ v := by
  induction l generalizing a with
  | nil => cases hv
  | cons x xs ih =>
    simp only [List.foldl_cons]
    rcases List.mem_cons.1 hv with rfl | hv'
    · exact le_trans (foldl_min_le_init xs (min a v)) (min_le_right a v)
    · exact ih hv' (min a x)

theorem foldl_min_mem {l : List Int} (a : Int) :
    l.foldl min a = a ∨ l.foldl min a ∈ l := by
  induction l generalizing a with
  | nil => left; rfl
  | cons x xs ih =>
    simp only [List.foldl_cons]
    rcases ih (min a x) with h | h
    · rcases min_cases a x with ⟨hm, _⟩ | ⟨hm, _⟩
      · left; rw [h, hm]
      · right; rw [h, hm]; exact List.mem_cons_self x xs
    · right; exact List.mem_cons_of_mem x h

theorem le_foldl_max_init (l : List Int) (a : Int) : a ≤ l.foldl max a := by
  induction l generalizing a with
  | nil => simp
  | cons x xs ih =>
    simp only [List.foldl_cons]
    exact le_trans (le_max_left a x) (ih (max a x))

theorem mem_le_foldl_max {l : List Int} {v : Int} (hv : v ∈ l) (a : Int) :
    v ≤ l.foldl max a := by
  induction l generalizing a with
  | nil => cases hv
  | cons x xs ih =>
    simp only [List.foldl_cons]
    rcases List.mem_cons.1 hv with rfl | hv'
    · exact le_trans (le_max_right a v) (le_foldl_max_init xs (max a v))
    · exact ih hv' (max a x)

theorem foldl_max_mem {l : List Int} (a : Int) :
    l.foldl max a = a ∨ l.foldl max a ∈ l := by
  induction l generalizing a with
  | nil => left; rfl
  | cons x xs ih =>
    simp only [List.foldl_cons]
    rcases ih (max a x) with h | h
    · rcases max_cases a x with ⟨hm, _⟩ | ⟨hm, _⟩
      · left; rw [h, hm]
      · right; rw [h, hm]; exact List.mem_cons_self x xs
    · right; exact List.mem_cons_of_mem x h

theorem listMin_le {l : List Int} {a v : Int} (h : listMin l = some a) (hv : v ∈ l) :
    a ≤ v := by
  cases l with
  | nil => cases hv
  | cons x xs =>
    simp only [listMin, Option.some_inj] at h
    subst h
    rcases List.mem_cons.1 hv with rfl | hv'
    · exact foldl_min_le_init xs v
    · exact foldl_min_le_mem hv' x

theorem listMin_mem {l : List Int} {a : Int} (h : listMin l = some a) : a ∈ l := by
  cases l with
  | nil => cases h
  | cons x xs =>
    simp only [listMin, Option.some_inj] at h
    subst h
    rcases @foldl_min_mem xs x with h | h
    · rw [h]; exact List.mem_cons_self x xs
    · exact List.mem_cons_of_mem x h

theorem le_listMax {l : List Int} {b v : Int} (h : listMax l = some b) (hv : v ∈ l) :
    v ≤ b := by
  cases l with
  | nil => cases hv
  | cons x xs =>
    simp only [listMax, Option.some_inj] at h
    subst h
    rcases List.mem_cons.1 hv with rfl | hv'
    · exact le_foldl_max_init xs v
    · exact mem_le_foldl_max hv' x

theorem listMax_mem {l : List Int} {b : Int} (h : listMax l = some b) : b ∈ l := by
  cases l with
  | nil => cases h
  | cons x xs =>
    simp only [listMax, Option.some_inj] at h
    subst h
    rcases @foldl_max_mem xs x with h | h
    · rw [h]; exact List.mem_cons_self x xs
    · exact List.mem_cons_of_mem x h

theorem listMin_isSome {l : List Int} (h : l ≠ []) : ∃ a, listMin l = some a := by
  cases l with
  | nil => exact absurd rfl h
  | cons x xs => exact ⟨xs.foldl min x, rfl⟩

theorem listMax_isSome {l : List Int} (h : l ≠ []) : ∃ b, listMax l = some b := by
  cases l with
  | nil => exact absurd rfl h
  | cons x xs => exact ⟨xs.foldl max x, rfl⟩

/-- Unique minimal element characterisation. -/
theorem listMin_eq_of {l : List Int} {a : Int} (ha : a ∈ l)
    (hle : ∀ w ∈ l, a ≤ w) : listMin l = some a := by
  obtain ⟨m, hma⟩ := listMin_isSome (show l ≠ [] by rintro rfl; cases ha)
  have h1 : a ≤ m := hle m (listMin_mem hma)
  have h2 : m ≤ a := listMin_le hma ha
  rw [hma, le_antisymm h2 h1]

theorem listMax_eq_of {l : List Int} {b : Int} (hb : b ∈ l)
    (hle : ∀ w ∈ l, w ≤ b) : listMax l = some b := by
  obtain ⟨m, hm⟩ := listMax_isSome (show l ≠ [] by rintro rfl; cases hb)
  have h1 : m ≤ b := hle m (listMax_mem hm)
  have h2 : b ≤ m := le_listMax hm hb
  rw [hm, le_antisymm h1 h2]

/-- Lower endpoint of a domain (`IntView::min`, default 0 for an empty list). -/
def dMin (d : List Int) : Int := (listMin d).getD 0

/-- Upper endpoint of a domain (`IntView::max`, default 0 for an empty list). -/
def dMax (d : List Int) : Int := (listMax d).getD 0

theorem dMin_le_mem {d : List Int} {v : Int} (hv : v ∈ d) : dMin d ≤ v := by
  obtain ⟨a, ha⟩ := listMin_isSome (show d ≠ [] by rintro rfl; cases hv)
  rw [dMin, ha]
  exact listMin_le ha hv

theorem mem_le_dMax {d : List Int} {v : Int} (hv : v ∈ d) : v ≤ dMax d := by
  obtain ⟨b, hb⟩ := listMax_isSome (show d ≠ [] by rintro rfl; cases hv)
  rw [dMax, hb]
  exact le_listMax hb hv

/-- The integers from `a` to `b` inclusive, in ascending order. -/
def intRange (a b : Int) : List Int :=
  (List.range (b + 1 - a).toNat).map (fun (n : Nat) => a + (n : Int))

theorem mem_intRange {a b v : Int} : v ∈ intRange a b ↔ a ≤ v ∧ v ≤ b := by
  constructor
  · intro h
    rcases List.mem_map.1 h with ⟨n, hn, rfl⟩
    rw [List.mem_range] at hn
    omega
  · rintro ⟨h1, h2⟩
    refine List.mem_map.2 ⟨(v - a).toNat, ?_, ?_⟩
    · rw [List.mem_range]; omega
    · omega

/-- The interval relaxation of a domain: all integers between its `min`
and its `max` (the bounds the `Bnd` propagator reasons about). -/
def intervalOf (d : List Int) : List Int := intRange (dMin d) (dMax d)

theorem mem_intervalOf {d : List Int} {v : Int} (hv : v ∈ d) : v ∈ intervalOf d := by
  rw [intervalOf, mem_intRange]
  exact ⟨dMin_le_mem hv, mem_le_dMax hv⟩

/-- All domains replaced by their interval relaxations. -/
def relaxed (ds : List (List Int)) : List (List Int) := ds.map intervalOf

theorem length_relaxed (ds : List (List Int)) : (relaxed ds).length = ds.length := by
  simp [relaxed]

theorem getD_relaxed {ds : List (List Int)} {i : Nat} (hi : i < ds.length) :
    (relaxed ds).getD i [] = intervalOf (ds.getD i []) := by
  have hg : ds.getD i [] = ds[i] := List.getD_eq_getElem ds [] hi
  have : (relaxed ds)[i]? = some (intervalOf (ds.getD i [])) := by
    rw [relaxed, List.getElem?_map, List.getElem?_eq_getElem hi, hg]
    rfl
  simp [List.getD, this]

/-- A section of the true domains is in particular a section of the
interval relaxations. -/
theorem forall2_relaxed {a : List Int} {ds : List (List Int)}
    (h : List.Forall₂ (· ∈ ·) a ds) : List.Forall₂ (· ∈ ·) a (relaxed ds) := by
  induction h with
  | nil => exact List.Forall₂.nil
  | cons hmem _ ih => exact List.Forall₂.cons (mem_intervalOf hmem) ih

/-- Modelled from the spec: the supported values of variable `i` in the
interval relaxation — the values the Hall-set machinery of `BndImp::ubc` /
`BndImp::lbc` (gcc.hh lines 165-209, `ubc.hpp`/`lbc.hpp` absent) leaves
available between the tightened bounds. -/
def supportList (ds : List (List Int)) (ks : List CardSpec) (i : Nat) : List Int :=
  (intervalOf (ds.getD i [])).filter (fun v => supportedB (relaxed ds) ks i v)

/-- Modelled from the spec: the `Bnd` propagator raises `min` to the least
supported value of the interval relaxation and lowers `max` to the
greatest one; a domain value survives iff it lies between the two
(bounds(Z) consistency, spec sections 4.3 and 8). -/
def bndKeep (ds : List (List Int)) (ks : List CardSpec) (i : Nat) (v : Int) : Bool :=
  match listMin (supportList ds ks i), listMax (supportList ds ks i) with
  | some a, some b => decide (a ≤ v) && decide (v ≤ b)
  | _, _ => false

/-- Modelled from the spec: the filtering performed by one successful run
of `BndImp::propagate` (gcc.hh lines 219-220, `bnd.hpp` absent). -/
def bndFilter (ds : List (List Int)) (ks : List CardSpec) : List (List Int) :=
  (List.range ds.length).map
    (fun i => (ds.getD i []).filter (fun v => bndKeep ds ks i v))

theorem length_bndFilter (ds : List (List Int)) (ks : List CardSpec) :
    (bndFilter ds ks).length = ds.length := by
  simp [bndFilter]

theorem getD_bndFilter {ds : List (List Int)} {ks : List CardSpec} {i : Nat}
    (hi : i < ds.length) :
    (bndFilter ds ks).getD i [] =
      (ds.getD i []).filter (fun v => bndKeep ds ks i v) := by
  have : (bndFilter ds ks)[i]? =
      some ((ds.getD i []).filter (fun v => bndKeep ds ks i v)) := by
    simp [bndFilter, List.getElem?_map, List.getElem?_range, hi]
  simp [List.getD, this]

theorem getD_bndFilter_ge {ds : List (List Int)} {ks : List CardSpec} {i : Nat}
    (hi : ds.length ≤ i) :
    (bndFilter ds ks).getD i [] = [] := by
  have : (bndFilter ds ks)[i]? = none := by
    apply List.getElem?_eq_none
    simpa [length_bndFilter]
  simp [List.getD, this]

theorem mem_bndFilter {ds : List (List Int)} {ks : List CardSpec} {i : Nat} {v : Int} :
    v ∈ (bndFilter ds ks).getD i [] ↔
      i < ds.length ∧ v ∈ ds.getD i [] ∧ bndKeep ds ks i v = true := by
  by_cases hi : i < ds.length
  · rw [getD_bndFilter hi]
    simp [List.mem_filter, hi]
  · rw [getD_bndFilter_ge (Nat.le_of_not_lt hi)]
    simp [hi]

/-- Modelled from the spec: `BndImp::propagate` reports failure exactly
when some variable is left with an empty domain. -/
def bndPropagate (ds : List (List Int)) (ks : List CardSpec) :
    Option (List (List Int)) :=
  let ds' := bndFilter ds ks
  if ds'.all (fun d => !d.isEmpty) then some ds' else none

/-- The domain is the (nonempty) set `\x7bv\x7d`: the variable is assigned `v`. -/
def pinnedTo (d : List Int) (v : Int) : Bool :=
  match d with
  | [] => false
  | w :: ws => (w == v) && ws.all (fun u => u == v)

/-- The variable is assigned: its nonempty domain holds a single value. -/
def isAssignedL (d : List Int) : Bool :=
  match d with
  | [] => false
  | w :: ws => ws.all (fun u => u == w)

/-- Number of variables assigned to value `v`. -/
def pinnedCount : List (List Int) → Int → Nat
  | [], _ => 0
  | d :: rest, v => (if pinnedTo d v then 1 else 0) + pinnedCount rest v

/-- Number of variables whose domain still contains value `v`. -/
def candCount : List (List Int) → Int → Nat
  | [], _ => 0
  | d :: rest, v => (if v ∈ d then 1 else 0) + candCount rest v

/-- Number of unassigned variables whose domain still contains value `v`. -/
def uCandCount : List (List Int) → Int → Nat
  | [], _ => 0
  | d :: rest, v =>
    (if !isAssignedL d && decide (v ∈ d) then 1 else 0) + uCandCount rest v

theorem pinnedTo_mem {d : List Int} {v w : Int}
    (h : pinnedTo d v = true) (hw : w ∈ d) : w = v := by
  cases d with
  | nil => cases hw
  | cons x xs =>
    simp only [pinnedTo, Bool.and_eq_true, beq_iff_eq, List.all_eq_true] at h
    rcases List.mem_cons.1 hw with rfl | hw'
    · exact h.1
    · exact h.2 w hw'

theorem mem_of_pinnedTo {d : List Int} {v : Int} (h : pinnedTo d v = true) :
    v ∈ d := by
  cases d with
  | nil => cases h
  | cons x xs =>
    simp only [pinnedTo, Bool.and_eq_true, beq_iff_eq] at h
    rw [← h.1]
    exact List.mem_cons_self x xs

theorem pinnedTo_isAssigned {d : List Int} {v : Int} (h : pinnedTo d v = true) :
    isAssignedL d = true := by
  cases d with
  | nil => cases h
  | cons x xs =>
    simp only [pinnedTo, Bool.and_eq_true, beq_iff_eq, List.all_eq_true] at h
    simp only [isAssignedL, List.all_eq_true]
    intro u hu
    rw [beq_iff_eq, h.2 u hu, h.1]

theorem isAssigned_pinnedTo {d : List Int} {u : Int}
    (h : isAssignedL d = true) (hu : u ∈ d) : pinnedTo d u = true := by
  cases d with
  | nil => cases hu
  | cons x xs =>
    simp only [isAssignedL, List.all_eq_true, beq_iff_eq] at h
    have hx : x = u := by
      rcases List.mem_cons.1 hu with rfl | hu'
      · rfl
      · exact (h u hu').symm
    simp only [pinnedTo, Bool.and_eq_true, beq_iff_eq, List.all_eq_true]
    exact ⟨hx, fun w hw => by rw [h w hw, hx]⟩

theorem countVal_cons (v x : Int) (a : List Int) :
    countVal v (x :: a) = countVal v a + (if x = v then 1 else 0) := by
  simp [countVal, List.count_cons]

/-- Occurrences in a section never exceed the number of candidate domains. -/
theorem count_le_cand {a : List Int} {ds : List (List Int)}
    (h : List.Forall₂ (· ∈ ·) a ds) (v : Int) :
    countVal v a ≤ candCount ds v := by
  induction h with
  | nil => simp [countVal]
  | @cons x d a' rest hmem htail ih =>
    rw [countVal_cons]
    show countVal v a' + _ ≤ (if v ∈ d then 1 else 0) + candCount rest v
    have hh := ih
    by_cases hx : x = v
    · subst hx
      simp only [hmem, if_true, if_pos trivial]
      omega
    · simp only [if_neg hx]
      omega

/-- Every variable assigned to `v` contributes an occurrence of `v`. -/
theorem pinned_le_count {a : List Int} {ds : List (List Int)}
    (h : List.Forall₂ (· ∈ ·) a ds) (v : Int) :
    pinnedCount ds v ≤ countVal v a := by
  induction h with
  | nil => simp [pinnedCount]
  | @cons x d a' rest hmem htail ih =>
    rw [countVal_cons]
    show (if pinnedTo d v then 1 else 0) + pinnedCount rest v ≤ _
    have hh := ih
    by_cases hp : pinnedTo d v = true
    · rw [if_pos hp, if_pos (pinnedTo_mem hp hmem)]
      omega
    · rw [if_neg (by simpa using hp)]
      omega

theorem pinnedTo_intervalOf {d : List Int} {v : Int} (h : pinnedTo d v = true) :
    intervalOf d = [v] := by
  have hmin : listMin d = some v :=
    listMin_eq_of (mem_of_pinnedTo h) (fun w hw => le_of_eq (pinnedTo_mem h hw).symm)
  have hmax : listMax d = some v :=
    listMax_eq_of (mem_of_pinnedTo h) (fun w hw => le_of_eq (pinnedTo_mem h hw))
  have h1 : (v + 1 - v).toNat = 1 := by omega
  rw [intervalOf, dMin, dMax, hmin, hmax]
  show intRange v v = [v]
  rw [intRange, h1, show List.range 1 = [0] from rfl]
  simp

/-- Assigned variables contribute occurrences even through the interval
relaxation of the domains. -/
theorem pinned_le_count_relaxed {ds : List (List Int)} :
    ∀ {a : List Int}, List.Forall₂ (· ∈ ·) a (relaxed ds) →
    ∀ v, pinnedCount ds v ≤ countVal v a := by
  induction ds with
  | nil =>
    intro a h v
    cases h
    simp [pinnedCount]
  | cons d rest ih =>
    intro a h v
    cases h with
    | @cons x _ a' _ hmem htail =>
      rw [countVal_cons]
      show (if pinnedTo d v then 1 else 0) + pinnedCount rest v ≤ _
      by_cases hp : pinnedTo d v = true
      · have hx : x = v := by
          have := pinnedTo_intervalOf hp
          rw [this] at hmem
          simpa using hmem
        rw [if_pos hp, if_pos hx]
        have := ih htail v
        omega
      · rw [if_neg (by simpa using hp)]
        have := ih htail v
        omega

/-- If variable `i` itself takes value `v` while not being assigned to it,
the occurrences of `v` strictly exceed the assigned count. -/
theorem pinned_lt_count_extra {v : Int} :
    ∀ {a : List Int} {ds : List (List Int)} {i : Nat},
    List.Forall₂ (· ∈ ·) a ds → i < ds.length → a.getD i 0 = v →
    pinnedTo (ds.getD i []) v = false →
    pinnedCount ds v < countVal v a := by
  intro a ds i h
  induction h generalizing i with
  | nil => intro hi; exact absurd hi (by simp)
  | @cons x d a' rest hmem htail ih =>
    intro hi hv hp
    cases i with
    | zero =>
      simp only [List.getD_cons_zero] at hv hp
      subst hv
      rw [countVal_cons, if_pos rfl]
      show (if pinnedTo d x then 1 else 0) + pinnedCount rest x < _
      rw [if_neg (by simp [hp])]
      have := pinned_le_count htail x
      omega
    | succ i =>
      simp only [List.getD_cons_succ] at hv hp
      have hrec := ih (by simpa using hi) hv hp
      rw [countVal_cons]
      show (if pinnedTo d v then 1 else 0) + pinnedCount rest v < _
      by_cases hpd : pinnedTo d v = true
      · rw [if_pos hpd, if_pos (pinnedTo_mem hpd hmem)]
        omega
      · rw [if_neg (by simpa using hpd)]
        omega

/-- Occurrences of `u` never exceed assigned-to-`u` plus unassigned
candidates of `u`. -/
theorem count_le_pinned_add_ucand {u : Int} {a : List Int} {ds : List (List Int)}
    (h : List.Forall₂ (· ∈ ·) a ds) :
    countVal u a ≤ pinnedCount ds u + uCandCount ds u := by
  induction h with
  | nil => simp [countVal]
  | @cons x d a' rest hmem htail ih =>
    rw [countVal_cons]
    show _ ≤ ((if pinnedTo d u then 1 else 0) + pinnedCount rest u) +
      ((if !isAssignedL d && decide (u ∈ d) then 1 else 0) + uCandCount rest u)
    have hh := ih
    by_cases hx : x = u
    · subst hx
      have hxd : x ∈ d := hmem
      by_cases ha : isAssignedL d = true
      · have hpin := isAssigned_pinnedTo ha hxd
        simp only [hpin, if_true, if_pos trivial]
        omega
      · have hcond : (!isAssignedL d && decide (x ∈ d)) = true := by
          simp [Bool.eq_false_iff.2 ha, hxd]
        simp only [hcond, if_true, if_pos trivial]
        omega
    · rw [if_neg hx]
      omega

/-- Strict version of `count_le_pinned_add_ucand`: an unassigned candidate
position taking a different value leaves one unit of slack. -/
theorem count_lt_pinned_add_ucand {u : Int} :
    ∀ {a : List Int} {ds : List (List Int)} {i : Nat},
    List.Forall₂ (· ∈ ·) a ds → i < ds.length →
    isAssignedL (ds.getD i []) = false → u ∈ ds.getD i [] →
    a.getD i 0 ≠ u →
    countVal u a < pinnedCount ds u + uCandCount ds u := by
  intro a ds i h
  induction h generalizing i with
  | nil => intro hi; exact absurd hi (by simp)
  | @cons x d a' rest hmem htail ih =>
    intro hi hA hu hne
    cases i with
    | zero =>
      simp only [List.getD_cons_zero] at hA hu hne
      rw [countVal_cons, if_neg hne]
      have hgen := @count_le_pinned_add_ucand u a' rest htail
      show _ < ((if pinnedTo d u then 1 else 0) + pinnedCount rest u) +
        ((if !isAssignedL d && decide (u ∈ d) then 1 else 0) + uCandCount rest u)
      have hcond : (!isAssignedL d && decide (u ∈ d)) = true := by
        simp [hA, hu]
      rw [hcond, if_pos rfl]
      omega
    | succ i =>
      simp only [List.getD_cons_succ] at hA hu hne
      have hrec := ih (by simpa using hi) hA hu hne
      rw [countVal_cons]
      show _ < ((if pinnedTo d u then 1 else 0) + pinnedCount rest u) +
        ((if !isAssignedL d && decide (u ∈ d) then 1 else 0) + uCandCount rest u)
      by_cases hx : x = u
      · subst hx
        by_cases ha : isAssignedL d = true
        · rw [if_pos (isAssigned_pinnedTo ha hmem), if_pos rfl]
          omega
        · have hcond : (!isAssignedL d && decide (x ∈ d)) = true := by
            simp [Bool.eq_false_iff.2 ha, hmem]
          rw [hcond, if_pos rfl, if_pos rfl]
          omega
      · rw [if_neg hx]
        omega

/-- Modelled from the spec: the removal rules of the value-consistent
propagator `Val::propagate` (gcc.hh lines 331-332, `val.hpp` absent, spec
section 4.5).  Rule 2: once `hi_j` variables are assigned to `v_j`, `v_j`
is removed from every variable not assigned to it.  Rule 1: when the
unassigned variables still containing `v_j` are exactly as many as the
occurrences still needed (`lo_j` minus assigned), they are all forced to
`v_j`, i.e. every other value is removed from them. -/
def valRemove (ds : List (List Int)) (ks : List CardSpec) (i : Nat) (v : Int) : Bool :=
  ks.any (fun c =>
    ((c.value == v) && decide (c.hi ≤ (pinnedCount ds c.value : Int)) &&
      !pinnedTo (ds.getD i []) c.value) ||
    (decide ((pinnedCount ds c.value : Int) < c.lo) &&
      decide ((uCandCount ds c.value : Int) = c.lo - (pinnedCount ds c.value : Int)) &&
      !isAssignedL (ds.getD i []) && decide (c.value ∈ ds.getD i []) &&
      !(c.value == v)))

/-- Modelled from the spec: the filtering performed by one pass of
`Val::propagate`. -/
def valFilter (ds : List (List Int)) (ks : List CardSpec) : List (List Int) :=
  (List.range ds.length).map
    (fun i => (ds.getD i []).filter (fun v => !valRemove ds ks i v))

theorem length_valFilter (ds : List (List Int)) (ks : List CardSpec) :
    (valFilter ds ks).length = ds.length := by
  simp [valFilter]

theorem getD_valFilter {ds : List (List Int)} {ks : List CardSpec} {i : Nat}
    (hi : i < ds.length) :
    (valFilter ds ks).getD i [] =
      (ds.getD i []).filter (fun v => !valRemove ds ks i v) := by
  have : (valFilter ds ks)[i]? =
      some ((ds.getD i []).filter (fun v => !valRemove ds ks i v)) := by
    simp [valFilter, List.getElem?_map, List.getElem?_range, hi]
  simp [List.getD, this]

theorem mem_valFilter {ds : List (List Int)} {ks : List CardSpec} {i : Nat} {v : Int}
    (hi : i < ds.length) :
    v ∈ (valFilter ds ks).getD i [] ↔
      v ∈ ds.getD i [] ∧ valRemove ds ks i v = false := by
  rw [getD_valFilter hi]
  simp [List.mem_filter]

/-- Modelled from the spec: `Val::propagate` fails on an emptied domain or
on a counter exceeding `hi_j` (spec section 4.5). -/
def valPropagate (ds : List (List Int)) (ks : List CardSpec) :
    Option (List (List Int)) :=
  if (valFilter ds ks).all (fun d => !d.isEmpty) &&
      ks.all (fun c => decide ((pinnedCount ds c.value : Int) ≤ c.hi)) then
    some (valFilter ds ks)
  else none

/-- Modelled from the spec: the execution-status lattice element returned
by a propagator (`ok-fix`, `ok-nofix`, `failed`; spec section 6). -/
inductive ExecStatus
  | failed
  | okFix
  | okNoFix
deriving DecidableEq

/-- Modelled from the spec: the status of one `BndImp::propagate` call
(spec section 4.6): `failed` on an emptied domain, `ok-fix` when nothing
was pruned, `ok-nofix` otherwise. -/
def bndExec (ds : List (List Int)) (ks : List CardSpec) : ExecStatus :=
  match bndPropagate ds ks with
  | none => .failed
  | some ds' => if ds' = ds then .okFix else .okNoFix

/-- Modelled from the spec: the status of one `Dom::propagate` call. -/
def domExec (ds : List (List Int)) (ks : List CardSpec) : ExecStatus :=
  match domPropagate ds ks with
  | none => .failed
  | some ds' => if ds' = ds then .okFix else .okNoFix

/-- Upper-bound-only satisfaction: every count is at most its `hi`
(the constraint enforced by the UBC pass alone). -/
def satUB (ks : List CardSpec) (a : List Int) : Bool :=
  ks.all (fun c => decide ((countVal c.value a : Int) ≤ c.hi))

/-- Supported values of variable `i` under the UBC constraint alone. -/
def supportedUbB (ds : List (List Int)) (ks : List CardSpec) (i : Nat) (v : Int) : Bool :=
  ds.sections.any (fun a => satUB ks a && (a.getD i 0 == v))

/-- UBC-pass analogue of `bndKeep`. -/
def ubcKeep (ds : List (List Int)) (ks : List CardSpec) (i : Nat) (v : Int) : Bool :=
  let s := (intervalOf (ds.getD i [])).filter (fun w => supportedUbB (relaxed ds) ks i w)
  match listMin s, listMax s with
  | some a, some b => decide (a ≤ v) && decide (v ≤ b)
  | _, _ => false

/-- Modelled from the spec: the filtering of the UBC pass run alone
(`BndImp::ubc`, gcc.hh lines 188-209, `ubc.hpp` absent). -/
def ubcFilter (ds : List (List Int)) (ks : List CardSpec) : List (List Int) :=
  (List.range ds.length).map
    (fun i => (ds.getD i []).filter (fun v => ubcKeep ds ks i v))

/-- Modelled from the spec: tightening a cardinality entry to new bounds
(`OccurrenceSpec` mutators, `occur.hpp` absent, spec section 4.1): a
tightening that yields `lo > hi` reports failure. -/
def tightenCard (c : CardSpec) (nlo nhi : Int) : Option CardSpec :=
  let l := max c.lo nlo
  let h := min c.hi nhi
  if l ≤ h then some (CardSpec.mk c.value l h) else none

/-- Sum of the lower cardinality bounds. -/
def sumLo (ks : List CardSpec) : Int := ks.foldr (fun c s => c.lo + s) 0

/-- Sum of the upper cardinality bounds. -/
def sumHi (ks : List CardSpec) : Int := ks.foldr (fun c s => c.hi + s) 0

/-- Modelled from the spec: the feasibility checks performed at post time
(`Bnd::post` / `Val::post` / `Dom::post`, `post.hpp` absent, spec section
4.7): `Σ lo_j ≤ n ≤ Σ hi_j`, all values distinct, counts non-negative. -/
def postChecks (n : Nat) (ks : List CardSpec) : Bool :=
  decide (sumLo ks ≤ (n : Int)) && decide ((n : Int) ≤ sumHi ks) &&
  decide ((ks.map (fun c => c.value)).Nodup) &&
  ks.all (fun c => decide (0 ≤ c.lo) && decide (0 ≤ c.hi))

/-- Modelled from the spec: posting the propagator — run the post-time
checks, fail if any fails, and otherwise perform the initial pruning
(when the `all` flag is set, values in no cardinality entry are removed). -/
def gccPost (ds : List (List Int)) (ks : List CardSpec) (allUsed : Bool) :
    Option (List (List Int)) :=
  if postChecks ds.length ks then
    some (if allUsed then
      ds.map (fun d => d.filter (fun v => ks.any (fun c => c.value == v)))
    else ds)
  else none

/-- Cost classes of the framework's `PropCost` (spec section 6). -/
inductive CostClass
  | lowLinear
  | highLinear
  | lowQuadratic
  | highCubic
deriving DecidableEq

/-- A propagation cost: a static or dynamic cost class. -/
structure PropCost where
  dynamic : Bool
  cl : CostClass
deriving DecidableEq

/-- Size of the largest domain among the views in `x`. -/
def maxDomSize (ds : List (List Int)) : Nat :=
  ds.foldr (fun d m => max d.length m) 0

/-- Modelled from the spec: `Dom::cost` (gcc.hh lines 281-293, `dom.hpp`
absent): low linear for `d < 6`, high linear for `6 ≤ d < n/2`, low
quadratic for `n/2 ≤ d < n²`, high cubic otherwise, where `d` is the size
of the largest domain of a view in `x`. -/
def domCost (ds : List (List Int)) : PropCost :=
  let n := ds.length
  let d := maxDomSize ds
  if d < 6 then PropCost.mk false CostClass.lowLinear
  else if d < n / 2 then PropCost.mk false CostClass.highLinear
  else if d < n * n then PropCost.mk false CostClass.lowQuadratic
  else PropCost.mk false CostClass.highCubic

/-- Modelled from the spec: `BndImp::cost` (gcc.hh lines 217-218) returns
dynamic low linear. -/
def bndCost (ds : List (List Int)) : PropCost :=
  PropCost.mk true CostClass.lowLinear

/-- Modelled from the spec: `Val::cost` (gcc.hh lines 329-330) returns
high linear. -/
def valCost (ds : List (List Int)) : PropCost :=
  PropCost.mk false CostClass.highLinear

/-- Largest value of the domain of variable `i` (sorting key for `mu`). -/
def keyMax (ds : List (List Int)) (i : Nat) : Int := dMax (ds.getD i [])

/-- Smallest value of the domain of variable `i` (sorting key for `nu`). -/
def keyMin (ds : List (List Int)) (i : Nat) : Int := dMin (ds.getD i [])

/-- Ordering of variable indices by ascending domain maximum. -/
def muRel (ds : List (List Int)) (i j : Nat) : Prop := keyMax ds i ≤ keyMax ds j

/-- Ordering of variable indices by ascending domain minimum. -/
def nuRel (ds : List (List Int)) (i j : Nat) : Prop := keyMin ds i ≤ keyMin ds j

instance (ds : List (List Int)) : DecidableRel (muRel ds) :=
  fun i j => Int.decLe (keyMax ds i) (keyMax ds j)

instance (ds : List (List Int)) : DecidableRel (nuRel ds) :=
  fun i j => Int.decLe (keyMin ds i) (keyMin ds j)

instance (ds : List (List Int)) : IsTotal Nat (muRel ds) :=
  ⟨fun i j => Int.le_total (keyMax ds i) (keyMax ds j)⟩

instance (ds : List (List Int)) : IsTotal Nat (nuRel ds) :=
  ⟨fun i j => Int.le_total (keyMin ds i) (keyMin ds j)⟩

instance (ds : List (List Int)) : IsTrans Nat (muRel ds) :=
  ⟨fun _ _ _ h1 h2 => le_trans h1 h2⟩

instance (ds : List (List Int)) : IsTrans Nat (nuRel ds) :=
  ⟨fun _ _ _ h1 h2 => le_trans h1 h2⟩

/-- Modelled from the spec: the permutation `mu` computed before the
`ubc`/`lbc` sweeps (`bnd.hpp` absent; gcc.hh lines 177-186 and 201-209
document the required ordering): variable indices sorted by ascending
domain maximum. -/
def muPerm (ds : List (List Int)) : List Nat :=
  List.insertionSort (muRel ds) (List.range ds.length)

/-- Modelled from the spec: the permutation `nu`: variable indices sorted
by ascending domain minimum. -/
def nuPerm (ds : List (List Int)) : List Nat :=
  List.insertionSort (nuRel ds) (List.range ds.length)

/-- A cardinality argument of the posting surface: either a fixed count
range or a cardinality variable (identified by a view id). -/
inductive CardSrc
  | fixedC (lo hi : Int)
  | viewC (id : Nat)
deriving DecidableEq

/-- A posting-time cardinality argument: a value with its source. -/
structure GccCardArg where
  value : Int
  src : CardSrc
deriving DecidableEq

/-- Whether a cardinality argument is variable-backed (`isView`). -/
def cardUsesView (c : GccCardArg) : Bool :=
  match c.src with
  | CardSrc.viewC _ => true
  | CardSrc.fixedC _ _ => false

/-- Modelled from the spec: the shared-view test of `Bnd::post` (gcc.hh
line 115: the post function checks whether `x` and `k` contain shared
views; `post.hpp` absent): some cardinality entry is backed by a view
that also occurs among the problem views. -/
def sharesViews (xids : List Nat) (k : List GccCardArg) : Bool :=
  k.any (fun c =>
    match c.src with
    | CardSrc.viewC id => xids.contains id
    | CardSrc.fixedC _ _ => false)

/-- The two monomorphised implementation variants of `BndImp` over the
`shared` template parameter. -/
inductive BndVariant
  | sharedImp
  | unsharedImp
deriving DecidableEq

/-- Modelled from the spec: `Bnd::post` dispatches on the result of the
shared-view check when selecting the implementation variant. -/
def bndPostVariant (xids : List Nat) (k : List GccCardArg) : BndVariant :=
  if sharesViews xids k then BndVariant.sharedImp else BndVariant.unsharedImp

theorem all_ne_nil_iff {l : List (List Int)} :
    (l.all fun d => !d.isEmpty) = true ↔ ∀ i, i < l.length → l.getD i [] ≠ [] := by
  rw [List.all_eq_true]
  constructor
  · intro h i hi
    have hm : l.getD i [] ∈ l := by
      rw [List.getD_eq_getElem l [] hi]
      exact List.getElem_mem hi
    have := h _ hm
    simpa using this
  · intro h d hd
    obtain ⟨i, hi, rfl⟩ := List.mem_iff_getElem.1 hd
    have := h i hi
    rw [List.getD_eq_getElem l [] hi] at this
    simpa using this

theorem domPropagate_some_iff {ds : List (List Int)} {ks : List CardSpec}
    {t : List (List Int)} :
    domPropagate ds ks = some t ↔
      (∀ i, i < ds.length → (domFilter ds ks).getD i [] ≠ []) ∧
      t = domFilter ds ks := by
  unfold domPropagate
  by_cases hc : ((domFilter ds ks).all fun d => !d.isEmpty) = true
  · have := all_ne_nil_iff.1 hc
    rw [length_domFilter] at this
    simp only [hc, if_true]
    constructor
    · intro hsome
      exact ⟨this, (Option.some_inj.1 hsome).symm⟩
    · rintro ⟨_, rfl⟩
      rfl
  · simp only [hc, if_false]
    constructor
    · intro hsome; cases hsome
    · rintro ⟨hall, rfl⟩
      exfalso
      apply hc
      rw [all_ne_nil_iff, length_domFilter]
      exact hall

theorem bndPropagate_some_iff {ds : List (List Int)} {ks : List CardSpec}
    {t : List (List Int)} :
    bndPropagate ds ks = some t ↔
      (∀ i, i < ds.length → (bndFilter ds ks).getD i [] ≠ []) ∧
      t = bndFilter ds ks := by
  unfold bndPropagate
  by_cases hc : ((bndFilter ds ks).all fun d => !d.isEmpty) = true
  · have := all_ne_nil_iff.1 hc
    rw [length_bndFilter] at this
    simp only [hc, if_true]
    constructor
    · intro hsome
      exact ⟨this, (Option.some_inj.1 hsome).symm⟩
    · rintro ⟨_, rfl⟩
      rfl
  · simp only [hc, if_false]
    constructor
    · intro hsome; cases hsome
    · rintro ⟨hall, rfl⟩
      exfalso
      apply hc
      rw [all_ne_nil_iff, length_bndFilter]
      exact hall

/-- Generalized arc consistency transfers supports into the filtered
domains: a support of any surviving value is itself made of surviving
values. -/
theorem domFilter_support {ds : List (List Int)} {ks : List CardSpec} {i : Nat}
    {v : Int} (hv : v ∈ (domFilter ds ks).getD i []) :
    ∃ a, List.Forall₂ (· ∈ ·) a (domFilter ds ks) ∧ satisfies ks a ∧
      a.getD i 0 = v := by
  obtain ⟨hi, hmem, hsup⟩ := mem_domFilter.1 hv
  obtain ⟨a, hF, hsat, hai⟩ := supportedB_iff.1 hsup
  refine ⟨a, ?_, hsat, hai⟩
  obtain ⟨hlen, hpt⟩ := forall2_getD hF
  apply forall2_of_getD
  · rw [hlen, length_domFilter]
  · intro l hl
    rw [length_domFilter] at hl
    apply mem_domFilter.2
    refine ⟨hl, hpt l hl, supportedB_iff.2 ⟨a, hF, hsat, rfl⟩⟩

/-- A value of the interval relaxation with an interval support is kept
by the `Bnd` filter. -/
theorem bndKeep_of_supported {ds : List (List Int)} {ks : List CardSpec}
    {i : Nat} {v : Int} (hv : v ∈ intervalOf (ds.getD i []))
    (hs : supportedB (relaxed ds) ks i v = true) : bndKeep ds ks i v = true := by
  have hmem : v ∈ supportList ds ks i := by
    rw [supportList, List.mem_filter]
    exact ⟨hv, hs⟩
  obtain ⟨a, ha⟩ := listMin_isSome (List.ne_nil_of_mem hmem)
  obtain ⟨b, hb⟩ := listMax_isSome (List.ne_nil_of_mem hmem)
  unfold bndKeep
  rw [ha, hb]
  simp [listMin_le ha hmem, le_listMax hb hmem]

theorem bndKeep_iff {ds : List (List Int)} {ks : List CardSpec} {i : Nat} {v : Int} :
    bndKeep ds ks i v = true ↔
      ∃ a b, listMin (supportList ds ks i) = some a ∧
        listMax (supportList ds ks i) = some b ∧ a ≤ v ∧ v ≤ b := by
  unfold bndKeep
  cases ha : listMin (supportList ds ks i) <;>
    cases hb : listMax (supportList ds ks i) <;> simp

/-- Every value surviving the `Dom` filter also survives the `Bnd`
filter: a domain support is in particular an interval support. -/
theorem domFilter_subset_bndFilter {ds : List (List Int)} {ks : List CardSpec}
    {i : Nat} {v : Int} (hv : v ∈ (domFilter ds ks).getD i []) :
    v ∈ (bndFilter ds ks).getD i [] := by
  obtain ⟨hi, hmem, hsup⟩ := mem_domFilter.1 hv
  obtain ⟨a, hF, hsat, hai⟩ := supportedB_iff.1 hsup
  apply mem_bndFilter.2
  refine ⟨hi, hmem, ?_⟩
  apply bndKeep_of_supported (mem_intervalOf hmem)
  exact supportedB_iff.2 ⟨a, forall2_relaxed hF, hsat, hai⟩

/-- Every value surviving the `Dom` filter also survives the `Val`
filter: the value-consistent removal rules only remove unsupported
values. -/
theorem domFilter_subset_valFilter {ds : List (List Int)} {ks : List CardSpec}
    {i : Nat} {v : Int} (hv : v ∈ (domFilter ds ks).getD i []) :
    v ∈ (valFilter ds ks).getD i [] := by
  obtain ⟨hi, hmem, hsup⟩ := mem_domFilter.1 hv
  obtain ⟨a, hF, hsat, hai⟩ := supportedB_iff.1 hsup
  rw [mem_valFilter hi]
  refine ⟨hmem, ?_⟩
  by_contra hrem
  rw [Bool.not_eq_false, valRemove, List.any_eq_true] at hrem
  obtain ⟨c, hc, hrule⟩ := hrem
  rw [Bool.or_eq_true] at hrule
  rcases hrule with h2 | h1
  · simp only [Bool.and_eq_true, beq_iff_eq, decide_eq_true_eq,
      Bool.not_eq_true'] at h2
    obtain ⟨⟨hval, hhi⟩, hnp⟩ := h2
    subst hval
    have hlt : pinnedCount ds c.value < countVal c.value a :=
      pinned_lt_count_extra hF hi hai hnp
    have hle : (countVal c.value a : Int) ≤ c.hi := (hsat c hc).2
    omega
  · simp only [Bool.and_eq_true, beq_iff_eq, decide_eq_true_eq,
      Bool.not_eq_true'] at h1
    obtain ⟨⟨⟨⟨hplo, hucand⟩, hna⟩, hcv⟩, hne⟩ := h1
    have hlt : countVal c.value a < pinnedCount ds c.value + uCandCount ds c.value := by
      apply count_lt_pinned_add_ucand hF hi hna hcv
      rw [hai]
      have hne' : c.value ≠ v := by simpa using hne
      intro heq
      exact hne' heq.symm
    have hlo : c.lo ≤ (countVal c.value a : Int) := (hsat c hc).1
    omega

/-- The per-variable lists of interval-supported values computed by the
`Bnd` propagator (the tightened bounds are their extrema). -/
def supportLists (ds : List (List Int)) (ks : List CardSpec) : List (List Int) :=
  (List.range ds.length).map (fun i => supportList ds ks i)

theorem length_supportLists (ds : List (List Int)) (ks : List CardSpec) :
    (supportLists ds ks).length = ds.length := by
  simp [supportLists]

theorem getD_supportLists {ds : List (List Int)} {ks : List CardSpec} {i : Nat}
    (hi : i < ds.length) :
    (supportLists ds ks).getD i [] = supportList ds ks i := by
  have : (supportLists ds ks)[i]? = some (supportList ds ks i) := by
    simp [supportLists, List.getElem?_map, List.getElem?_range, hi]
  simp [List.getD, this]

/-- An interval support places each of its components among the supported
values of the corresponding variable. -/
theorem forall2_supportLists {ds : List (List Int)} {ks : List CardSpec}
    {a : List Int} (hF : List.Forall₂ (· ∈ ·) a (relaxed ds))
    (hsat : satisfies ks a) :
    List.Forall₂ (· ∈ ·) a (supportLists ds ks) := by
  obtain ⟨hlen, hpt⟩ := forall2_getD hF
  rw [length_relaxed] at hlen
  apply forall2_of_getD
  · rw [hlen, length_supportLists]
  · intro l hl
    rw [length_supportLists] at hl
    rw [getD_supportLists hl, supportList, List.mem_filter]
    have hml := hpt l (by rw [length_relaxed]; exact hl)
    rw [getD_relaxed hl] at hml
    exact ⟨hml, supportedB_iff.2 ⟨a, hF, hsat, rfl⟩⟩

/-- After a successful `Bnd` run on at least one variable, the tightened
bounds are feasible: some choice of supported values satisfies all
cardinality constraints. -/
theorem bnd_success_feasible {ds : List (List Int)} {ks : List CardSpec}
    {t : List (List Int)} (h : bndPropagate ds ks = some t)
    (hn : 0 < ds.length) :
    ∃ a, List.Forall₂ (· ∈ ·) a (supportLists ds ks) ∧ satisfies ks a := by
  obtain ⟨hall, _⟩ := bndPropagate_some_iff.1 h
  obtain ⟨v, hv⟩ := List.exists_mem_of_ne_nil _ (hall 0 hn)
  obtain ⟨_, _, hkeep⟩ := mem_bndFilter.1 hv
  obtain ⟨a, b, hA, _, _, _⟩ := bndKeep_iff.1 hkeep
  have hmem : a ∈ supportList ds ks 0 := listMin_mem hA
  rw [supportList, List.mem_filter] at hmem
  obtain ⟨α, hF, hsat, _⟩ := supportedB_iff.1 hmem.2
  exact ⟨α, forall2_supportLists hF hsat, hsat⟩

/-- Extensional equality of lists of domains from pointwise `getD`. -/
theorem list_eq_of_getD {l₁ l₂ : List (List Int)} (hlen : l₁.length = l₂.length)
    (h : ∀ i, i < l₂.length → l₁.getD i [] = l₂.getD i []) : l₁ = l₂ := by
  apply List.ext_getElem hlen
  intro i h₁ h₂
  have := h i h₂
  rwa [List.getD_eq_getElem l₁ [] h₁, List.getD_eq_getElem l₂ [] h₂] at this

/-- The `Dom` filter is idempotent: every surviving value keeps a support
made of surviving values. -/
theorem domFilter_idem (ds : List (List Int)) (ks : List CardSpec) :
    domFilter (domFilter ds ks) ks = domFilter ds ks := by
  apply list_eq_of_getD
  · rw [length_domFilter, length_domFilter]
  · intro i hi
    rw [length_domFilter] at hi
    have hi' : i < (domFilter ds ks).length := by rw [length_domFilter]; exact hi
    rw [getD_domFilter hi']
    apply List.filter_eq_self.2
    intro v hv
    obtain ⟨a, hF, hsat, hai⟩ := domFilter_support hv
    exact supportedB_iff.2 ⟨a, hF, hsat, hai⟩

/-- On hole-free (interval) domains the `Bnd` filter is idempotent: the
tightened bounds are realised inside the new domains, and every support
stays within the tightened boxes. -/
theorem bndFilter_idem_of_intervals {ds : List (List Int)} {ks : List CardSpec}
    (hint : ∀ d ∈ ds, d = intervalOf d)
    (hne : ∀ i, i < ds.length → (bndFilter ds ks).getD i [] ≠ []) :
    bndFilter (bndFilter ds ks) ks = bndFilter ds ks := by
  have key : ∀ i, i < ds.length → ∃ a b,
      listMin (supportList ds ks i) = some a ∧
      listMax (supportList ds ks i) = some b := by
    intro i hi
    obtain ⟨v, hv⟩ := List.exists_mem_of_ne_nil _ (hne i hi)
    obtain ⟨_, _, hkeep⟩ := mem_bndFilter.1 hv
    obtain ⟨a, b, ha, hb, _, _⟩ := bndKeep_iff.1 hkeep
    exact ⟨a, b, ha, hb⟩
  choose A B hA hB using key
  have hkeep_iff : ∀ i (hi : i < ds.length) v,
      bndKeep ds ks i v = true ↔ A i hi ≤ v ∧ v ≤ B i hi := by
    intro i hi v
    rw [bndKeep_iff]
    constructor
    · rintro ⟨a, b, ha, hb, h1, h2⟩
      obtain rfl := Option.some_inj.1 ((hA i hi).symm.trans ha)
      obtain rfl := Option.some_inj.1 ((hB i hi).symm.trans hb)
      exact ⟨h1, h2⟩
    · rintro ⟨h1, h2⟩
      exact ⟨A i hi, B i hi, hA i hi, hB i hi, h1, h2⟩
  have hmemF : ∀ i (hi : i < ds.length) v,
      v ∈ (bndFilter ds ks).getD i [] ↔
        v ∈ ds.getD i [] ∧ A i hi ≤ v ∧ v ≤ B i hi := by
    intro i hi v
    rw [mem_bndFilter]
    constructor
    · rintro ⟨_, hm, hk⟩
      exact ⟨hm, (hkeep_iff i hi v).1 hk⟩
    · rintro ⟨hm, hAv, hBv⟩
      exact ⟨hi, hm, (hkeep_iff i hi v).2 ⟨hAv, hBv⟩⟩
  have hAS : ∀ i (hi : i < ds.length), A i hi ∈ supportList ds ks i :=
    fun i hi => listMin_mem (hA i hi)
  have hBS : ∀ i (hi : i < ds.length), B i hi ∈ supportList ds ks i :=
    fun i hi => listMax_mem (hB i hi)
  have hAB : ∀ i (hi : i < ds.length), A i hi ≤ B i hi :=
    fun i hi => le_listMax (hB i hi) (hAS i hi)
  have hSbound : ∀ i (hi : i < ds.length) w, w ∈ supportList ds ks i →
      A i hi ≤ w ∧ w ≤ B i hi :=
    fun i hi w hw => ⟨listMin_le (hA i hi) hw, le_listMax (hB i hi) hw⟩
  have hds_int : ∀ i, i < ds.length → ds.getD i [] = intervalOf (ds.getD i []) := by
    intro i hi
    apply hint
    rw [List.getD_eq_getElem ds [] hi]
    exact List.getElem_mem hi
  have hAmem : ∀ i (hi : i < ds.length), A i hi ∈ (bndFilter ds ks).getD i [] := by
    intro i hi
    rw [hmemF i hi]
    refine ⟨?_, le_refl _, hAB i hi⟩
    rw [hds_int i hi]
    have hin := hAS i hi
    rw [supportList, List.mem_filter] at hin
    exact hin.1
  have hBmem : ∀ i (hi : i < ds.length), B i hi ∈ (bndFilter ds ks).getD i [] := by
    intro i hi
    rw [hmemF i hi]
    refine ⟨?_, hAB i hi, le_refl _⟩
    rw [hds_int i hi]
    have hin := hBS i hi
    rw [supportList, List.mem_filter] at hin
    exact hin.1
  have hFmin : ∀ i (hi : i < ds.length),
      listMin ((bndFilter ds ks).getD i []) = some (A i hi) := by
    intro i hi
    exact listMin_eq_of (hAmem i hi) (fun w hw => ((hmemF i hi w).1 hw).2.1)
  have hFmax : ∀ i (hi : i < ds.length),
      listMax ((bndFilter ds ks).getD i []) = some (B i hi) := by
    intro i hi
    exact listMax_eq_of (hBmem i hi) (fun w hw => ((hmemF i hi w).1 hw).2.2)
  have hFint : ∀ i (hi : i < ds.length),
      intervalOf ((bndFilter ds ks).getD i []) = intRange (A i hi) (B i hi) := by
    intro i hi
    rw [intervalOf, dMin, dMax, hFmin i hi, hFmax i hi]
    rfl
  have hlenF : (bndFilter ds ks).length = ds.length := length_bndFilter ds ks
  have htrans : ∀ α, List.Forall₂ (· ∈ ·) α (relaxed ds) → satisfies ks α →
      List.Forall₂ (· ∈ ·) α (relaxed (bndFilter ds ks)) := by
    intro α hF2 hsat
    obtain ⟨hlen2, hpt⟩ := forall2_getD hF2
    rw [length_relaxed] at hlen2
    apply forall2_of_getD
    · rw [hlen2, length_relaxed, hlenF]
    · intro l hl
      rw [length_relaxed, hlenF] at hl
      rw [getD_relaxed (by rw [hlenF]; exact hl), hFint l hl, mem_intRange]
      have hml := hpt l (by rw [length_relaxed]; exact hl)
      rw [getD_relaxed hl] at hml
      have hself : α.getD l 0 ∈ supportList ds ks l := by
        rw [supportList, List.mem_filter]
        exact ⟨hml, supportedB_iff.2 ⟨α, hF2, hsat, rfl⟩⟩
      exact hSbound l hl _ hself
  have hsup2 : ∀ i (_ : i < ds.length) w, w ∈ supportList ds ks i →
      supportedB (relaxed (bndFilter ds ks)) ks i w = true := by
    intro i hi w hw
    rw [supportList, List.mem_filter] at hw
    obtain ⟨α, hF2, hsat, hα⟩ := supportedB_iff.1 hw.2
    exact supportedB_iff.2 ⟨α, htrans α hF2 hsat, hsat, hα⟩
  have hS2 : ∀ i (hi : i < ds.length),
      listMin (supportList (bndFilter ds ks) ks i) = some (A i hi) ∧
      listMax (supportList (bndFilter ds ks) ks i) = some (B i hi) := by
    intro i hi
    have hup : ∀ w, w ∈ supportList (bndFilter ds ks) ks i →
        A i hi ≤ w ∧ w ≤ B i hi := by
      intro w hw
      rw [supportList, List.mem_filter, hFint i hi, mem_intRange] at hw
      exact hw.1
    have hAin : A i hi ∈ supportList (bndFilter ds ks) ks i := by
      rw [supportList, List.mem_filter, hFint i hi, mem_intRange]
      exact ⟨⟨le_refl _, hAB i hi⟩, hsup2 i hi _ (hAS i hi)⟩
    have hBin : B i hi ∈ supportList (bndFilter ds ks) ks i := by
      rw [supportList, List.mem_filter, hFint i hi, mem_intRange]
      exact ⟨⟨hAB i hi, le_refl _⟩, hsup2 i hi _ (hBS i hi)⟩
    exact ⟨listMin_eq_of hAin (fun w hw => (hup w hw).1),
      listMax_eq_of hBin (fun w hw => (hup w hw).2)⟩
  apply list_eq_of_getD
  · rw [length_bndFilter, length_bndFilter]
  · intro i hi
    rw [length_bndFilter] at hi
    have hiF : i < (bndFilter ds ks).length := by rw [hlenF]; exact hi
    rw [getD_bndFilter hiF]
    apply List.filter_eq_self.2
    intro v hv
    have hv' := (hmemF i hi v).1 hv
    rw [bndKeep_iff]
    exact ⟨A i hi, B i hi, (hS2 i hi).1, (hS2 i hi).2, hv'.2.1, hv'.2.2⟩

/-- When every lower cardinality bound is zero, satisfaction degenerates
to the upper-bound constraint. -/
theorem satB_eq_satUB : ∀ {ks : List CardSpec}, (∀ c ∈ ks, c.lo = 0) →
    ∀ a, satB ks a = satUB ks a
  | [], _, _ => rfl
  | c :: rest, h, a => by
    have hc : c.lo = 0 := h c (List.mem_cons_self c rest)
    have hr := satB_eq_satUB (fun c' hc' => h c' (List.mem_cons_of_mem c hc')) a
    show ((decide (c.lo ≤ (countVal c.value a : Int)) &&
        decide ((countVal c.value a : Int) ≤ c.hi)) && satB rest a) =
      (decide ((countVal c.value a : Int) ≤ c.hi) && satUB rest a)
    rw [hc, hr]
    have h0 : decide ((0 : Int) ≤ (countVal c.value a : Int)) = true := by
      simp [Int.natCast_nonneg]
    rw [h0, Bool.true_and]

/-- With all lower bounds zero the `Bnd` filtering coincides with the UBC
pass run alone. -/
theorem bndFilter_eq_ubcFilter {ds : List (List Int)} {ks : List CardSpec}
    (h : ∀ c ∈ ks, c.lo = 0) : bndFilter ds ks = ubcFilter ds ks := by
  have hfun : satB ks = satUB ks := funext (satB_eq_satUB h)
  have hsup : supportedB (relaxed ds) ks = supportedUbB (relaxed ds) ks := by
    funext i v
    rw [supportedB, supportedUbB, hfun]
  rw [bndFilter, ubcFilter]
  congr 1
  funext i
  congr 1
  funext v
  rw [bndKeep, ubcKeep, supportList, hsup]

/-- After a successful `Dom` run with at least one variable, every value
keeps at least `lo_j` candidate domains and at most `hi_j` variables are
assigned to it. -/
theorem dom_success_counts {ds : List (List Int)} {ks : List CardSpec}
    {t : List (List Int)} (h : domPropagate ds ks = some t)
    (hn : 0 < ds.length) :
    ∀ c ∈ ks, c.lo ≤ (candCount t c.value : Int) ∧
      (pinnedCount t c.value : Int) ≤ c.hi := by
  obtain ⟨hall, rfl⟩ := domPropagate_some_iff.1 h
  obtain ⟨v, hv⟩ := List.exists_mem_of_ne_nil _ (hall 0 hn)
  obtain ⟨a, hF, hsat, _⟩ := domFilter_support hv
  intro c hc
  have h1 := count_le_cand hF c.value
  have h2 := pinned_le_count hF c.value
  have h3 := hsat c hc
  omega

/-- An empty input domain makes all three propagators fail. -/
theorem propagate_fail_of_empty {ds : List (List Int)} {ks : List CardSpec}
    {i : Nat} (hi : i < ds.length) (he : ds.getD i [] = []) :
    domPropagate ds ks = none ∧ bndPropagate ds ks = none ∧
      valPropagate ds ks = none := by
  have hdom : (domFilter ds ks).getD i [] = [] := by
    rw [getD_domFilter hi, he]
    rfl
  have hbnd : (bndFilter ds ks).getD i [] = [] := by
    rw [getD_bndFilter hi, he]
    rfl
  have hval : (valFilter ds ks).getD i [] = [] := by
    rw [getD_valFilter hi, he]
    rfl
  refine ⟨?_, ?_, ?_⟩
  · cases hd : domPropagate ds ks with
    | none => rfl
    | some t =>
      obtain ⟨hall, _⟩ := domPropagate_some_iff.1 hd
      exact absurd hdom (hall i hi)
  · cases hd : bndPropagate ds ks with
    | none => rfl
    | some t =>
      obtain ⟨hall, _⟩ := bndPropagate_some_iff.1 hd
      exact absurd hbnd (hall i hi)
  · have hX : ((valFilter ds ks).all fun d => !d.isEmpty) = false := by
      rw [Bool.eq_false_iff]
      intro hAll
      have := (all_ne_nil_iff.1 hAll) i (by rw [length_valFilter]; exact hi)
      exact this hval
    unfold valPropagate
    rw [hX, Bool.false_and]
    rfl

/-- A capacity overflow (more variables assigned to a value than its `hi`
allows) makes all three propagators fail. -/
theorem overflow_fails {ds : List (List Int)} {ks : List CardSpec}
    {c : CardSpec} (hc : c ∈ ks) (hn : 0 < ds.length)
    (hov : c.hi < (pinnedCount ds c.value : Int)) :
    domPropagate ds ks = none ∧ bndPropagate ds ks = none ∧
      valPropagate ds ks = none := by
  have hnosat : ∀ a, List.Forall₂ (· ∈ ·) a ds → ¬satisfies ks a := by
    intro a hF hs
    have h1 := pinned_le_count hF c.value
    have h2 := (hs c hc).2
    omega
  have hnosatR : ∀ a, List.Forall₂ (· ∈ ·) a (relaxed ds) → ¬satisfies ks a := by
    intro a hF hs
    have h1 := pinned_le_count_relaxed hF c.value
    have h2 := (hs c hc).2
    omega
  have hdom : (domFilter ds ks).getD 0 [] = [] := by
    rw [List.eq_nil_iff_forall_not_mem]
    intro v hv
    obtain ⟨_, _, hsup⟩ := mem_domFilter.1 hv
    obtain ⟨a, hF, hsat, _⟩ := supportedB_iff.1 hsup
    exact hnosat a hF hsat
  have hbnd : (bndFilter ds ks).getD 0 [] = [] := by
    rw [List.eq_nil_iff_forall_not_mem]
    intro v hv
    obtain ⟨_, _, hkeep⟩ := mem_bndFilter.1 hv
    obtain ⟨a, b, ha, _, _, _⟩ := bndKeep_iff.1 hkeep
    have hm := listMin_mem ha
    rw [supportList, List.mem_filter] at hm
    obtain ⟨α, hF, hsat, _⟩ := supportedB_iff.1 hm.2
    exact hnosatR α hF hsat
  refine ⟨?_, ?_, ?_⟩
  · cases hd : domPropagate ds ks with
    | none => rfl
    | some t =>
      obtain ⟨hall, _⟩ := domPropagate_some_iff.1 hd
      exact absurd hdom (hall 0 hn)
  · cases hd : bndPropagate ds ks with
    | none => rfl
    | some t =>
      obtain ⟨hall, _⟩ := bndPropagate_some_iff.1 hd
      exact absurd hbnd (hall 0 hn)
  · have hB : (ks.all fun c' =>
        decide ((pinnedCount ds c'.value : Int) ≤ c'.hi)) = false := by
      rw [Bool.eq_false_iff]
      intro hAll
      have := List.all_eq_true.1 hAll c hc
      simp only [decide_eq_true_eq] at this
      omega
    unfold valPropagate
    rw [hB, Bool.and_false]
    rfl

/-- A capacity underflow (fewer candidate domains for a value than its
`lo` demands) makes the `Dom` propagator fail. -/
theorem underflow_dom_fails {ds : List (List Int)} {ks : List CardSpec}
    {c : CardSpec} (hc : c ∈ ks) (hn : 0 < ds.length)
    (hun : (candCount ds c.value : Int) < c.lo) :
    domPropagate ds ks = none := by
  have hnosat : ∀ a, List.Forall₂ (· ∈ ·) a ds → ¬satisfies ks a := by
    intro a hF hs
    have h1 := count_le_cand hF c.value
    have h2 := (hs c hc).1
    omega
  have hdom : (domFilter ds ks).getD 0 [] = [] := by
    rw [List.eq_nil_iff_forall_not_mem]
    intro v hv
    obtain ⟨_, _, hsup⟩ := mem_domFilter.1 hv
    obtain ⟨a, hF, hsat, _⟩ := supportedB_iff.1 hsup
    exact hnosat a hF hsat
  cases hd : domPropagate ds ks with
  | none => rfl
  | some t =>
    obtain ⟨hall, _⟩ := domPropagate_some_iff.1 hd
    exact absurd hdom (hall 0 hn)

theorem muPerm_sorted (ds : List (List Int)) :
    (muPerm ds).Sorted (muRel ds) :=
  List.sorted_insertionSort (muRel ds) (List.range ds.length)

theorem nuPerm_sorted (ds : List (List Int)) :
    (nuPerm ds).Sorted (nuRel ds) :=
  List.sorted_insertionSort (nuRel ds) (List.range ds.length)

theorem muPerm_perm (ds : List (List Int)) :
    (muPerm ds).Perm (List.range ds.length) :=
  List.perm_insertionSort (muRel ds) (List.range ds.length)

theorem nuPerm_perm (ds : List (List Int)) :
    (nuPerm ds).Perm (List.range ds.length) :=
  List.perm_insertionSort (nuRel ds) (List.range ds.length)

theorem length_muPerm (ds : List (List Int)) : (muPerm ds).length = ds.length := by
  rw [(muPerm_perm ds).length_eq, List.length_range]

theorem length_nuPerm (ds : List (List Int)) : (nuPerm ds).length = ds.length := by
  rw [(nuPerm_perm ds).length_eq, List.length_range]

/-- Adjacent elements of a sorted list of indices are related. -/
theorem sorted_adjacent {r : Nat → Nat → Prop} {l : List Nat}
    (hs : l.Sorted r) {i : Nat} (hi : i + 1 < l.length) :
    r (l.getD i 0) (l.getD (i + 1) 0) := by
  have hi0 : i < l.length := lt_trans (Nat.lt_succ_self i) hi
  have h := List.pairwise_iff_get.1 hs ⟨i, hi0⟩ ⟨i + 1, hi⟩
    (by exact Nat.lt_succ_self i)
  rwa [List.get_eq_getElem, List.get_eq_getElem,
    ← List.getD_eq_getElem l 0 hi0, ← List.getD_eq_getElem l 0 hi] at h

/-- The post-time checks as propositions. -/
theorem postChecks_iff {n : Nat} {ks : List CardSpec} :
    postChecks n ks = true ↔
      sumLo ks ≤ (n : Int) ∧ (n : Int) ≤ sumHi ks ∧
      (ks.map (fun c => c.value)).Nodup ∧
      ∀ c ∈ ks, 0 ≤ c.lo ∧ 0 ≤ c.hi := by
  simp [postChecks, List.all_eq_true, and_assoc]

/-- Claim C1: after every successful `Dom::propagate`, every value remaining
in any variable domain participates in an assignment drawn from the pruned
domains that satisfies every cardinality constraint (generalized arc
consistency); after a successful `Bnd::propagate` the weaker bounds
feasibility holds: some choice of interval-supported values satisfies all
cardinality constraints. -/
theorem claim_c1_dom_gac_bnd_feasible (ds : List (List Int)) (ks : List CardSpec) :
    (∀ t, domPropagate ds ks = some t →
      ∀ i v, v ∈ t.getD i [] →
        ∃ a, List.Forall₂ (· ∈ ·) a t ∧ satisfies ks a ∧ a.getD i 0 = v) ∧
    (∀ t, bndPropagate ds ks = some t → 0 < ds.length →
      ∃ a, List.Forall₂ (· ∈ ·) a (supportLists ds ks) ∧ satisfies ks a) := by
  constructor
  · intro t ht i v hv
    obtain ⟨_, rfl⟩ := domPropagate_some_iff.1 ht
    exact domFilter_support hv
  · intro t ht hn
    exact bnd_success_feasible ht hn

/-- Witness for C1 at the spec's scenario 2: x = (1..2, 1..2, 1..3) with the
AllDifferent cardinalities; Dom prunes x₂ to `\x7b3\x7d` and the value 3 kept
there has a support; the Bnd bounds are feasible. -/
theorem claim_c1_witness :
    (∃ a, List.Forall₂ (· ∈ ·) a [[1, 2], [1, 2], [3]] ∧
      satisfies [⟨1, 1, 1⟩, ⟨2, 1, 1⟩, ⟨3, 1, 1⟩] a ∧ a.getD 2 0 = 3) ∧
    (∃ a, List.Forall₂ (· ∈ ·) a
        (supportLists [[1, 2], [1, 2], [1, 2, 3]] [⟨1, 1, 1⟩, ⟨2, 1, 1⟩, ⟨3, 1, 1⟩]) ∧
      satisfies [⟨1, 1, 1⟩, ⟨2, 1, 1⟩, ⟨3, 1, 1⟩] a) :=
  ⟨(claim_c1_dom_gac_bnd_feasible [[1, 2], [1, 2], [1, 2, 3]]
      [⟨1, 1, 1⟩, ⟨2, 1, 1⟩, ⟨3, 1, 1⟩]).1 [[1, 2], [1, 2], [3]] (by decide)
      2 3 (by decide),
   (claim_c1_dom_gac_bnd_feasible [[1, 2], [1, 2], [1, 2, 3]]
      [⟨1, 1, 1⟩, ⟨2, 1, 1⟩, ⟨3, 1, 1⟩]).2 [[1, 2], [1, 2], [3]]
      (by decide) (by decide)⟩

/-- Counterexample to claim C2 as stated: on x = (`\x7b1\x7d`, `\x7b0,1,2\x7d`) with
cards 1:[0,1], 0:[0,2], 2:[0,2], the Val pass prunes value 1 from x₁ (one
variable is already assigned to 1, saturating hi₁ = 1) while the Bnd filter
keeps it (1 is strictly inside the bounds of x₁, and a bounds propagator
cannot remove interior values): a prune made by Val is not made by Bnd. -/
theorem claim_c2_counterexample :
    (1 : Int) ∈ ([[1], [0, 1, 2]] : List (List Int)).getD 1 [] ∧
    (1 : Int) ∉ (valFilter [[1], [0, 1, 2]] [⟨1, 0, 1⟩, ⟨0, 0, 2⟩, ⟨2, 0, 2⟩]).getD 1 [] ∧
    (1 : Int) ∈ (bndFilter [[1], [0, 1, 2]] [⟨1, 0, 1⟩, ⟨0, 0, 2⟩, ⟨2, 0, 2⟩]).getD 1 [] := by
  decide

/-- Claim C2 (amended): given identical inputs, every prune made by Bnd is
made by Dom and every prune made by Val is made by Dom (the Dom filter keeps
a subset of what either keeps); Val's value-based hole prunes need not be
made by the bounds-only Bnd filter. -/
theorem claim_c2_amended (ds : List (List Int)) (ks : List CardSpec) :
    ∀ i v, v ∈ (domFilter ds ks).getD i [] →
      v ∈ (bndFilter ds ks).getD i [] ∧ v ∈ (valFilter ds ks).getD i [] :=
  fun _ _ hv => ⟨domFilter_subset_bndFilter hv, domFilter_subset_valFilter hv⟩

/-- Witness for the amended C2 at a concrete input. -/
theorem claim_c2_witness :
    (2 : Int) ∈ (bndFilter [[1], [0, 1, 2]] [⟨1, 0, 1⟩, ⟨0, 0, 2⟩, ⟨2, 0, 2⟩]).getD 1 [] ∧
    (2 : Int) ∈ (valFilter [[1], [0, 1, 2]] [⟨1, 0, 1⟩, ⟨0, 0, 2⟩, ⟨2, 0, 2⟩]).getD 1 [] :=
  claim_c2_amended [[1], [0, 1, 2]] [⟨1, 0, 1⟩, ⟨0, 0, 2⟩, ⟨2, 0, 2⟩] 1 2 (by decide)

/-- Counterexample to claim C3 as stated: on x = (`\x7b0,2\x7d`, `\x7b0,1,2\x7d`)
with cards 0:[0,0], 1:[0,1], 2:[0,1] the first Bnd call succeeds (pruning to
(`\x7b2\x7d`, `\x7b1,2\x7d`)), yet a second invocation on that output prunes
again (to (`\x7b2\x7d`, `\x7b1\x7d`)) and returns non-fixpoint: the raised
lower bound snapped past a hole, invalidating an interval support. -/
theorem claim_c3_counterexample :
    bndPropagate [[0, 2], [0, 1, 2]] [⟨0, 0, 0⟩, ⟨1, 0, 1⟩, ⟨2, 0, 1⟩] =
      some [[2], [1, 2]] ∧
    bndExec [[2], [1, 2]] [⟨0, 0, 0⟩, ⟨1, 0, 1⟩, ⟨2, 0, 1⟩] = ExecStatus.okNoFix ∧
    bndFilter [[2], [1, 2]] [⟨0, 0, 0⟩, ⟨1, 0, 1⟩, ⟨2, 0, 1⟩] ≠ [[2], [1, 2]] := by
  decide

/-- Claim C3 (amended): `Dom::propagate` is idempotent: after a successful
call, invoking it again with no external changes returns ok-fix with no
further prunings; `BndImp::propagate` is likewise idempotent whenever every
variable domain is a contiguous interval (hole-free); on domains with holes a
second Bnd invocation may prune further. -/
theorem claim_c3_amended (ds : List (List Int)) (ks : List CardSpec) :
    (∀ t, domPropagate ds ks = some t →
      domPropagate t ks = some t ∧ domExec t ks = ExecStatus.okFix) ∧
    ((∀ d ∈ ds, d = intervalOf d) → ∀ t, bndPropagate ds ks = some t →
      bndPropagate t ks = some t ∧ bndExec t ks = ExecStatus.okFix) := by
  constructor
  · intro t ht
    obtain ⟨hall, rfl⟩ := domPropagate_some_iff.1 ht
    have hidem := domFilter_idem ds ks
    have hsome : domPropagate (domFilter ds ks) ks = some (domFilter ds ks) := by
      apply domPropagate_some_iff.2
      refine ⟨?_, hidem.symm⟩
      intro i hi
      rw [hidem]
      rw [length_domFilter] at hi
      exact hall i hi
    refine ⟨hsome, ?_⟩
    unfold domExec
    rw [hsome]
    simp
  · intro hint t ht
    obtain ⟨hall, rfl⟩ := bndPropagate_some_iff.1 ht
    have hidem := bndFilter_idem_of_intervals hint hall
    have hsome : bndPropagate (bndFilter ds ks) ks = some (bndFilter ds ks) := by
      apply bndPropagate_some_iff.2
      refine ⟨?_, hidem.symm⟩
      intro i hi
      rw [hidem]
      rw [length_bndFilter] at hi
      exact hall i hi
    refine ⟨hsome, ?_⟩
    unfold bndExec
    rw [hsome]
    simp

/-- Witness for the amended C3: valid on the AllDifferent scenario whose
domains are intervals. -/
theorem claim_c3_witness :
    (domPropagate [[1, 2], [1, 2], [3]] [⟨1, 1, 1⟩, ⟨2, 1, 1⟩, ⟨3, 1, 1⟩] =
        some [[1, 2], [1, 2], [3]] ∧
      domExec [[1, 2], [1, 2], [3]] [⟨1, 1, 1⟩, ⟨2, 1, 1⟩, ⟨3, 1, 1⟩] =
        ExecStatus.okFix) ∧
    (bndPropagate [[1, 2], [1, 2], [3]] [⟨1, 1, 1⟩, ⟨2, 1, 1⟩, ⟨3, 1, 1⟩] =
        some [[1, 2], [1, 2], [3]] ∧
      bndExec [[1, 2], [1, 2], [3]] [⟨1, 1, 1⟩, ⟨2, 1, 1⟩, ⟨3, 1, 1⟩] =
        ExecStatus.okFix) :=
  ⟨(claim_c3_amended [[1, 2], [1, 2], [1, 2, 3]]
      [⟨1, 1, 1⟩, ⟨2, 1, 1⟩, ⟨3, 1, 1⟩]).1 [[1, 2], [1, 2], [3]] (by decide),
   (claim_c3_amended [[1, 2], [1, 2], [1, 2, 3]]
      [⟨1, 1, 1⟩, ⟨2, 1, 1⟩, ⟨3, 1, 1⟩]).2 (by decide)
      [[1, 2], [1, 2], [3]] (by decide)⟩

/-- Counterexample to claim C4 as stated: on x = (`\x7b0,2\x7d`, `\x7b0,2\x7d`)
with cards 0:[0,2], 1:[1,2], 2:[0,2], the Bnd propagator succeeds without any
pruning (the interval relaxations contain the hole value 1), yet no domain
contains the value 1, violating `lo₁ ≤ |\x7bi : 1 ∈ dom(x_i)\x7d|`. -/
theorem claim_c4_counterexample :
    bndPropagate [[0, 2], [0, 2]] [⟨0, 0, 2⟩, ⟨1, 1, 2⟩, ⟨2, 0, 2⟩] =
      some [[0, 2], [0, 2]] ∧
    ¬((1 : Int) ≤ (candCount [[0, 2], [0, 2]] 1 : Int)) := by
  decide

/-- Claim C4 (amended): after every successful `Dom::propagate` on at least
one variable, for every cardinality entry j the pruned domains keep at least
`lo_j` variables whose domain contains `v_j` and at most `hi_j` variables
whose domain is the singleton `\x7bv_j\x7d`; after Bnd, which reasons only on
the interval relaxation, these counts can be violated by holes. -/
theorem claim_c4_amended (ds : List (List Int)) (ks : List CardSpec) :
    ∀ t, domPropagate ds ks = some t → 0 < ds.length →
      ∀ c ∈ ks, c.lo ≤ (candCount t c.value : Int) ∧
        (pinnedCount t c.value : Int) ≤ c.hi :=
  fun _ ht hn => dom_success_counts ht hn

/-- Witness for the amended C4. -/
theorem claim_c4_witness :
    (1 : Int) ≤ (candCount [[1, 2], [1, 2], [3]] 3 : Int) ∧
    (pinnedCount [[1, 2], [1, 2], [3]] 3 : Int) ≤ 1 := by
  have h := claim_c4_amended [[1, 2], [1, 2], [1, 2, 3]]
    [⟨1, 1, 1⟩, ⟨2, 1, 1⟩, ⟨3, 1, 1⟩] [[1, 2], [1, 2], [3]]
    (by decide) (by decide) ⟨3, 1, 1⟩ (by decide)
  exact h

/-- Claim C5: when every lower cardinality bound is zero (`skip_lbc`), the
LBC pass cannot prune anything and the domains produced by the Bnd filtering
equal those produced by the UBC pass run alone: skipping LBC is sound. -/
theorem claim_c5_skip_lbc (ds : List (List Int)) (ks : List CardSpec)
    (h : ∀ c ∈ ks, c.lo = 0) : bndFilter ds ks = ubcFilter ds ks :=
  bndFilter_eq_ubcFilter h

/-- Witness for C5 at a concrete all-zero-lower-bound instance. -/
theorem claim_c5_witness :
    bndFilter [[0, 2], [0, 1, 2]] [⟨0, 0, 0⟩, ⟨1, 0, 1⟩, ⟨2, 0, 1⟩] =
      ubcFilter [[0, 2], [0, 1, 2]] [⟨0, 0, 0⟩, ⟨1, 0, 1⟩, ⟨2, 0, 1⟩] :=
  claim_c5_skip_lbc [[0, 2], [0, 1, 2]] [⟨0, 0, 0⟩, ⟨1, 0, 1⟩, ⟨2, 0, 1⟩] (by decide)

/-- Claim C6: `Dom::cost` is low-linear when d < 6, high-linear when
6 ≤ d < n/2, low-quadratic when n/2 ≤ d < n² (and 6 ≤ d), high-cubic when
n² ≤ d (and 6 ≤ d), where d is the largest domain size among the views;
`BndImp::cost` is dynamic low-linear and `Val::cost` is high-linear. -/
theorem claim_c6_cost (ds : List (List Int)) :
    (maxDomSize ds < 6 → domCost ds = PropCost.mk false CostClass.lowLinear) ∧
    (6 ≤ maxDomSize ds → maxDomSize ds < ds.length / 2 →
      domCost ds = PropCost.mk false CostClass.highLinear) ∧
    (6 ≤ maxDomSize ds → ds.length / 2 ≤ maxDomSize ds →
      maxDomSize ds < ds.length * ds.length →
      domCost ds = PropCost.mk false CostClass.lowQuadratic) ∧
    (6 ≤ maxDomSize ds → ds.length * ds.length ≤ maxDomSize ds →
      domCost ds = PropCost.mk false CostClass.highCubic) ∧
    bndCost ds = PropCost.mk true CostClass.lowLinear ∧
    valCost ds = PropCost.mk false CostClass.highLinear := by
  refine ⟨?_, ?_, ?_, ?_, rfl, rfl⟩
  · intro h
    simp [domCost, h]
  · intro h6 hn2
    have h1 : ¬ maxDomSize ds < 6 := by omega
    simp [domCost, h1, hn2]
  · intro h6 hge hlt
    have h1 : ¬ maxDomSize ds < 6 := by omega
    have h2 : ¬ maxDomSize ds < ds.length / 2 := by omega
    simp [domCost, h1, h2, hlt]
  · intro h6 hge
    have h1 : ¬ maxDomSize ds < 6 := by omega
    have hq : ds.length / 2 ≤ ds.length * ds.length := by
      rcases Nat.eq_zero_or_pos ds.length with h0 | h0
      · simp [h0]
      · calc ds.length / 2 ≤ ds.length := Nat.div_le_self _ _
          _ ≤ ds.length * ds.length := Nat.le_mul_of_pos_left _ h0
    have h2 : ¬ maxDomSize ds < ds.length / 2 := by omega
    have h3 : ¬ maxDomSize ds < ds.length * ds.length := by omega
    simp [domCost, h1, h2, h3]

/-- Witness for C6: all four Dom cost classes realised at concrete view
arrays, plus the Bnd and Val cost classes. -/
theorem claim_c6_witness :
    domCost [[1, 2, 3]] = PropCost.mk false CostClass.lowLinear ∧
    domCost (List.replicate 20 ([0, 1, 2, 3, 4, 5] : List Int)) =
      PropCost.mk false CostClass.highLinear ∧
    domCost (List.replicate 14 ([0, 1, 2, 3, 4, 5, 6, 7, 8, 9] : List Int)) =
      PropCost.mk false CostClass.lowQuadratic ∧
    domCost [[0, 1, 2, 3, 4, 5], [0]] = PropCost.mk false CostClass.highCubic ∧
    bndCost [[1]] = PropCost.mk true CostClass.lowLinear ∧
    valCost [[1]] = PropCost.mk false CostClass.highLinear :=
  ⟨(claim_c6_cost [[1, 2, 3]]).1 (by decide),
   (claim_c6_cost (List.replicate 20 ([0, 1, 2, 3, 4, 5] : List Int))).2.1
     (by decide) (by decide),
   (claim_c6_cost (List.replicate 14 ([0, 1, 2, 3, 4, 5, 6, 7, 8, 9] : List Int))).2.2.1
     (by decide) (by decide) (by decide),
   (claim_c6_cost [[0, 1, 2, 3, 4, 5], [0]]).2.2.2.1 (by decide) (by decide),
   (claim_c6_cost [[1]]).2.2.2.2.1,
   (claim_c6_cost [[1]]).2.2.2.2.2⟩

/-- Claim C7: posting checks `Σ lo_j ≤ n ≤ Σ hi_j`, pairwise-distinct values
and non-negative counts; it succeeds (performing the initial pruning) when
all of them hold and returns failure when any fails. -/
theorem claim_c7_post (ds : List (List Int)) (ks : List CardSpec) (allUsed : Bool) :
    ((sumLo ks ≤ (ds.length : Int) ∧ (ds.length : Int) ≤ sumHi ks ∧
        (ks.map (fun c => c.value)).Nodup ∧ (∀ c ∈ ks, 0 ≤ c.lo ∧ 0 ≤ c.hi)) →
      gccPost ds ks allUsed ≠ none) ∧
    (¬(sumLo ks ≤ (ds.length : Int) ∧ (ds.length : Int) ≤ sumHi ks ∧
        (ks.map (fun c => c.value)).Nodup ∧ (∀ c ∈ ks, 0 ≤ c.lo ∧ 0 ≤ c.hi)) →
      gccPost ds ks allUsed = none) := by
  constructor
  · intro hok
    unfold gccPost
    rw [if_pos (postChecks_iff.2 hok)]
    simp
  · intro hbad
    unfold gccPost
    rw [if_neg (fun hc => hbad (postChecks_iff.1 hc))]

/-- Witness for C7: a passing and a failing post. -/
theorem claim_c7_witness :
    gccPost [[1, 2]] [⟨1, 0, 2⟩] true ≠ none ∧
    gccPost [[1]] [⟨1, 2, 2⟩, ⟨1, 0, 0⟩] true = none :=
  ⟨(claim_c7_post [[1, 2]] [⟨1, 0, 2⟩] true).1 (by decide),
   (claim_c7_post [[1]] [⟨1, 2, 2⟩, ⟨1, 0, 0⟩] true).2 (by decide)⟩

/-- Claim C8: each modelled error is surfaced through the `failed` return
value of the (total) propagate and tightening functions: a cardinality
tightening yielding `lo > hi` fails, an empty variable domain fails all three
propagators, a capacity overflow fails all three, and a capacity underflow
fails the Dom propagator; no other error channel exists in the model. -/
theorem claim_c8_errors :
    (∀ (c : CardSpec) (nlo nhi : Int), min c.hi nhi < max c.lo nlo →
      tightenCard c nlo nhi = none) ∧
    (∀ (ds : List (List Int)) (ks : List CardSpec) (i : Nat),
      i < ds.length → ds.getD i [] = [] →
      domPropagate ds ks = none ∧ bndPropagate ds ks = none ∧
        valPropagate ds ks = none) ∧
    (∀ (ds : List (List Int)) (ks : List CardSpec) (c : CardSpec),
      c ∈ ks → 0 < ds.length → c.hi < (pinnedCount ds c.value : Int) →
      domPropagate ds ks = none ∧ bndPropagate ds ks = none ∧
        valPropagate ds ks = none) ∧
    (∀ (ds : List (List Int)) (ks : List CardSpec) (c : CardSpec),
      c ∈ ks → 0 < ds.length → (candCount ds c.value : Int) < c.lo →
      domPropagate ds ks = none) := by
  refine ⟨?_, ?_, ?_, ?_⟩
  · intro c nlo nhi h
    unfold tightenCard
    rw [if_neg (by omega)]
  · intro ds ks i hi he
    exact propagate_fail_of_empty hi he
  · intro ds ks c hc hn hov
    exact overflow_fails hc hn hov
  · intro ds ks c hc hn hun
    exact underflow_dom_fails hc hn hun

/-- Witness for C8: each error kind at a concrete input. -/
theorem claim_c8_witness :
    tightenCard ⟨0, 0, 1⟩ 3 2 = none ∧
    (domPropagate [([] : List Int)] [⟨1, 0, 1⟩] = none ∧
      bndPropagate [([] : List Int)] [⟨1, 0, 1⟩] = none ∧
      valPropagate [([] : List Int)] [⟨1, 0, 1⟩] = none) ∧
    (domPropagate [[1], [1]] [⟨1, 0, 1⟩] = none ∧
      bndPropagate [[1], [1]] [⟨1, 0, 1⟩] = none ∧
      valPropagate [[1], [1]] [⟨1, 0, 1⟩] = none) ∧
    domPropagate [[0]] [⟨1, 1, 1⟩] = none :=
  ⟨claim_c8_errors.1 ⟨0, 0, 1⟩ 3 2 (by decide),
   claim_c8_errors.2.1 [([] : List Int)] [⟨1, 0, 1⟩] 0 (by decide) (by decide),
   claim_c8_errors.2.2.1 [[1], [1]] [⟨1, 0, 1⟩] ⟨1, 0, 1⟩ (by decide) (by decide)
     (by decide),
   claim_c8_errors.2.2.2 [[0]] [⟨1, 1, 1⟩] ⟨1, 1, 1⟩ (by decide) (by decide)
     (by decide)⟩

/-- Claim C9: whenever the lbc/ubc sweeps run, the permutation `mu` lists the
variable indices by ascending domain maximum and `nu` by ascending domain
minimum: adjacent entries satisfy `max(x[mu[i]]) ≤ max(x[mu[i+1]])` and
`min(x[nu[i]]) ≤ min(x[nu[i+1]])`; both are permutations of the indices. -/
theorem claim_c9_mu_nu (ds : List (List Int)) :
    (∀ i, i + 1 < ds.length →
      keyMax ds ((muPerm ds).getD i 0) ≤ keyMax ds ((muPerm ds).getD (i + 1) 0) ∧
      keyMin ds ((nuPerm ds).getD i 0) ≤ keyMin ds ((nuPerm ds).getD (i + 1) 0)) ∧
    (muPerm ds).Perm (List.range ds.length) ∧
    (nuPerm ds).Perm (List.range ds.length) := by
  refine ⟨?_, muPerm_perm ds, nuPerm_perm ds⟩
  intro i hi
  constructor
  · exact sorted_adjacent (muPerm_sorted ds) (by rw [length_muPerm]; exact hi)
  · exact sorted_adjacent (nuPerm_sorted ds) (by rw [length_nuPerm]; exact hi)

/-- Witness for C9 at a two-variable instance. -/
theorem claim_c9_witness :
    keyMax [[5, 7], [1, 2]] ((muPerm [[5, 7], [1, 2]]).getD 0 0) ≤
      keyMax [[5, 7], [1, 2]] ((muPerm [[5, 7], [1, 2]]).getD 1 0) ∧
    keyMin [[5, 7], [1, 2]] ((nuPerm [[5, 7], [1, 2]]).getD 0 0) ≤
      keyMin [[5, 7], [1, 2]] ((nuPerm [[5, 7], [1, 2]]).getD 1 0) :=
  (claim_c9_mu_nu [[5, 7], [1, 2]]).1 0 (by decide)

/-- Claim C10: `Bnd::post` checks whether `x` and `k` contain shared views
and selects the shared implementation variant exactly when they do; with
fixed cardinalities (`isView = false`) no entry is backed by a view, so no
sharing can occur and the unshared variant is always chosen — the
fixed-cardinality instantiation never runs with shared views. -/
theorem claim_c10_shared_views (xids : List Nat) (k : List GccCardArg) :
    (bndPostVariant xids k = BndVariant.sharedImp ↔ sharesViews xids k = true) ∧
    ((∀ c ∈ k, cardUsesView c = false) → sharesViews xids k = false ∧
      bndPostVariant xids k = BndVariant.unsharedImp) := by
  constructor
  · unfold bndPostVariant
    by_cases h : sharesViews xids k = true
    · simp [h]
    · simp [h]
  · intro hall
    have hs : sharesViews xids k = false := by
      rw [Bool.eq_false_iff]
      intro hsh
      rw [sharesViews, List.any_eq_true] at hsh
      obtain ⟨c, hc, hcc⟩ := hsh
      have hv := hall c hc
      rw [cardUsesView] at hv
      cases hsrc : c.src with
      | viewC id =>
        rw [hsrc] at hv
        cases hv
      | fixedC lo hi =>
        rw [hsrc] at hcc
        cases hcc
    refine ⟨hs, ?_⟩
    unfold bndPostVariant
    rw [hs]
    rfl

/-- Witness for C10: fixed cardinalities never share views with `x`. -/
theorem claim_c10_witness :
    sharesViews [0, 1] [⟨5, CardSrc.fixedC 1 2⟩] = false ∧
    bndPostVariant [0, 1] [⟨5, CardSrc.fixedC 1 2⟩] = BndVariant.unsharedImp :=
  (claim_c10_shared_views [0, 1] [⟨5, CardSrc.fixedC 1 2⟩]).2 (by decide)

end GccSpec
